import Mathlib

/-!
Verification of the concurrent playlist-download pipeline (`main.py`).

The development shallowly embeds the pipeline's core functions:

* `normalize_filename`  — `text.translate(str.maketrans('\\/.:*?"<>|','__________')).strip()`
* `get_youtube_url`     — duration-based candidate selection (`_get_youtube_url`)
* `download_track`      — temp-name download, rename with bounded retry (`_download_track`)
* `normalize_audio`     — ffmpeg re-encode with delete-then-rename swap (`_normalize_audio`)
* `processTrack`        — per-track coordinator with glob-based pre-check (`_process_track`)
* `create_zip` / `download_playlist` — archive construction and run-level control flow
* `tempFilename`        — `f"temp_{hash(url) % 10000}"` temp naming

External effects (subprocess results, filesystem lock failures, provider responses)
are passed in as explicit oracle values, and filesystem state is threaded as data,
so every embedded function is a total computable function.
-/

/-- The set of characters Python's `str.isspace` (and hence `str.strip`) treats as
whitespace, written by code point. -/
def pyWhitespace : List Char :=
  [Char.ofNat 9, Char.ofNat 10, Char.ofNat 11, Char.ofNat 12, Char.ofNat 13,
   Char.ofNat 28, Char.ofNat 29, Char.ofNat 30, Char.ofNat 31, Char.ofNat 32,
   Char.ofNat 133, Char.ofNat 160, Char.ofNat 5760,
   Char.ofNat 8192, Char.ofNat 8193, Char.ofNat 8194, Char.ofNat 8195,
   Char.ofNat 8196, Char.ofNat 8197, Char.ofNat 8198, Char.ofNat 8199,
   Char.ofNat 8200, Char.ofNat 8201, Char.ofNat 8202,
   Char.ofNat 8232, Char.ofNat 8233, Char.ofNat 8239, Char.ofNat 8287,
   Char.ofNat 12288]

def pyIsSpace (c : Char) : Bool := pyWhitespace.contains c

/-- Python's `str.strip()`: drop whitespace from the front, then from the back. -/
def pyStrip (l : List Char) : List Char :=
  List.rdropWhile pyIsSpace (List.dropWhile pyIsSpace l)

/-- The translation-source set of `normalize_filename`:
the ten characters of the literal `'\\/.:*?"<>|'` (note that it contains `'.'`). -/
def forbiddenChars : List Char := ['\\', '/', '.', ':', '*', '?', '"', '<', '>', '|']

/-- One character through `str.maketrans('\\/.:*?"<>|', '__________')`. -/
def translateChar (c : Char) : Char := if forbiddenChars.contains c then '_' else c

/-- `SpotifyDownloader.normalize_filename`:
`text.translate(str.maketrans('\\/.:*?"<>|', '__________')).strip()`. -/
def normalize_filename (s : String) : String :=
  String.mk (pyStrip (s.data.map translateChar))

/-- The forbidden set as the specification words it: "path separators, colon,
asterisk, question mark, quote, angle brackets, pipe" — nine characters, without
the period.  Written from the spec's words, for comparison with `forbiddenChars`. -/
def specForbiddenChars : List Char := ['\\', '/', ':', '*', '?', '"', '<', '>', '|']

/-- A search-provider candidate as consumed by `_get_youtube_url`: a resource
locator (`entry.get('url')`) and an optional observed duration
(`entry.get('duration', 0)` defaults a missing duration to `0`). -/
structure SearchEntry where
  url : Option String
  duration : Option Int
deriving DecidableEq, Repr

/-- The sort key of `_get_youtube_url`: `abs(x.get('duration', 0) - duration)`. -/
def entryKey (target : Int) (e : SearchEntry) : Int :=
  abs (e.duration.getD 0 - target)

/-- Python's `min(entries, key=f)` on a non-empty list `a :: l`: left fold that
replaces the current best only on a strictly smaller key, so the first minimal
element is kept. -/
def pyMin (f : SearchEntry → Int) (a : SearchEntry) (l : List SearchEntry) : SearchEntry :=
  l.foldl (fun acc x => if f x < f acc then x else acc) a

/-- `SpotifyDownloader._get_youtube_url` after the provider call: the provider
either raises (any exception is converted to an absent result) or yields the
entry list.  `if not entries: return None`; `if not duration or duration == 0:
return entries[0].get('url')`; otherwise the result of `min` keyed on duration
distance. -/
def get_youtube_url (searchResult : Except Unit (List SearchEntry)) (duration : Int) :
    Option String :=
  match searchResult with
  | Except.error _ => none
  | Except.ok [] => none
  | Except.ok (e :: rest) =>
    if duration = 0 then e.url
    else (pyMin (entryKey duration) e rest).url

/-- `m` is the first entry of `l` attaining the minimal key `f`. -/
def isFirstMin (f : SearchEntry → Int) (l : List SearchEntry) (m : SearchEntry) : Prop :=
  ∃ i, ∃ h : i < l.length,
    l.get ⟨i, h⟩ = m ∧ (∀ x ∈ l, f m ≤ f x) ∧ ∀ x ∈ l.take i, f m < f x

/-- The surrounding-quote characters of a glob character class, split at the
first `']'`: `splitClose l = some (content, rest)` splits `l` into the class
content before the first `']'` and the remainder after it; `none` when `l` has
no `']'` (CPython then treats the `'['` as a literal). -/
def splitClose : List Char → Option (List Char × List Char)
  | [] => none
  | c :: rest =>
    if c = ']' then some ([], rest)
    else (splitClose rest).map (fun ab => (c :: ab.1, ab.2))

/-- CPython's scan of a class body ignoring negation: a `']'` in the first
position is part of the content. -/
def parseClassCore (l : List Char) : Option (List Char × List Char) :=
  match l with
  | [] => none
  | c :: r2 =>
    if c = ']' then (splitClose r2).map (fun ab => (c :: ab.1, ab.2))
    else splitClose (c :: r2)

/-- CPython `fnmatch.translate`'s parse of the characters following `'['`:
`some (negated, content, rest)` on a well-formed class, `none` when no closing
`']'` exists. -/
def parseClass (l : List Char) : Option (Bool × List Char × List Char) :=
  match l with
  | [] => none
  | c :: l1 =>
    if c = '!' then (parseClassCore l1).map (fun ab => (true, ab.1, ab.2))
    else (parseClassCore (c :: l1)).map (fun ab => (false, ab.1, ab.2))

/-- Membership of a character in a class content list, with `x-y` ranges; a
trailing `'-'` is a literal, as in `fnmatch.translate`. -/
def inClass : List Char → Char → Bool
  | [], _ => false
  | [x], c => x == c
  | x :: '-' :: y :: rest, c => (x ≤ c && c ≤ y) || inClass rest c
  | x :: rest, c => (x == c) || inClass rest c

/-- Fuel-indexed glob matching with CPython `fnmatch` semantics (`'*'`, `'?'`,
`'[...]'` classes with `'!'` negation, unmatched `'['` literal).  Each
recursive call strictly decreases `pattern.length + s.length`, so any fuel
above that sum gives the true answer. -/
def fnmatchFuel : Nat → List Char → List Char → Bool
  | 0, _, _ => false
  | n + 1, p, s =>
    match p with
    | [] => s.isEmpty
    | c :: ps =>
      if c = '*' then
        fnmatchFuel n ps s ||
          (match s with
           | [] => false
           | _ :: ss => fnmatchFuel n ('*' :: ps) ss)
      else if c = '?' then
        (match s with
         | [] => false
         | _ :: ss => fnmatchFuel n ps ss)
      else if c = '[' then
        (match parseClass ps with
         | none =>
           (match s with
            | [] => false
            | d :: ss => (d == '[') && fnmatchFuel n ps ss)
         | some nc =>
           (match s with
            | [] => false
            | d :: ss => (inClass nc.2.1 d != nc.1) && fnmatchFuel n nc.2.2 ss))
      else
        (match s with
         | [] => false
         | d :: ss => (d == c) && fnmatchFuel n ps ss)

/-- Glob matching on character lists (sufficient fuel supplied). -/
def fnmatchL (p s : List Char) : Bool :=
  fnmatchFuel (p.length + s.length + 1) p s

/-- Glob matching on strings: the semantics of `pathlib`'s `Path.glob` for one
name component, used by `_process_track`'s `playlist_path.glob(filename_pattern)`. -/
def fnmatchStr (p s : String) : Bool := fnmatchL p.data s.data

/-- `lit` contains no glob metacharacter, so it is matched literally. -/
def metacharFree (l : List Char) : Prop :=
  ∀ c ∈ l, c ≠ '*' ∧ c ≠ '?' ∧ c ≠ '['

/-- A catalog track record: `{"name", "artists": [{"name"}...], "duration_ms"}`. -/
structure Track where
  name : String
  artists : List String
  duration_ms : Int
deriving DecidableEq, Repr

/-- The externally visible steps a `_process_track` unit can take. -/
inductive ProcAction where
  | resolve
  | fetch (finalFilename : String)
  | normalize
deriving DecidableEq, Repr

/-- Oracle for one `_process_track` unit: the candidate resolution outcome and
whether the download step produced a file. -/
structure ProcEnv where
  resolveResult : Option String
  fetchSucceeded : Bool

/-- `SpotifyDownloader._process_track`: normalize names, build
`filename_pattern = f"*{track_name}*.mp3"`, and skip the unit when any file in
the output directory matches the glob; otherwise resolve, then fetch, then
normalize.  The returned list records which steps ran. -/
def processTrack (env : ProcEnv) (dirFiles : List String) (track : Track) : List ProcAction :=
  let trackName := normalize_filename track.name
  let artistName := normalize_filename (String.intercalate ", " track.artists)
  let finalFilename := artistName ++ " - " ++ trackName
  let pat := "*" ++ trackName ++ "*.mp3"
  if dirFiles.any (fun f => fnmatchStr pat f) then []
  else
    ProcAction.resolve ::
      (match env.resolveResult with
       | none => []
       | some _ =>
         ProcAction.fetch finalFilename ::
           (if env.fetchSucceeded then [ProcAction.normalize] else []))

/-- Oracle for one `_download_track` call: whether `ydl.download` raises,
whether the glob for `temp_*.mp3` finds a file, and which rename attempts hit a
transient `OSError`. -/
structure FetchEnv where
  downloadRaises : Bool
  tempFound : Bool
  renameFails : Nat → Bool

/-- The body of `SpotifyDownloader._download_track` before its `except` clause:
download, glob for the temp file, then at most `range(2)` rename attempts with a
fixed delay between them.  The result carries the returned path and the number
of rename attempts performed. -/
def download_track_body (env : FetchEnv) (outputPath finalFilename : String) :
    Except Unit (Option String × Nat) :=
  if env.downloadRaises then Except.error ()
  else if env.tempFound = false then Except.ok (none, 0)
  else if env.renameFails 0 = false then
    Except.ok (some (outputPath ++ "/" ++ finalFilename ++ ".mp3"), 1)
  else if env.renameFails 1 = false then
    Except.ok (some (outputPath ++ "/" ++ finalFilename ++ ".mp3"), 2)
  else Except.ok (none, 2)

/-- `SpotifyDownloader._download_track`: the `except Exception` clause converts
any raised error into `None`. -/
def download_track (env : FetchEnv) (outputPath finalFilename : String) :
    Option String × Nat :=
  match download_track_body env outputPath finalFilename with
  | Except.error _ => (none, 0)
  | Except.ok r => r

/-- Outcome of `subprocess.run(cmd, capture_output=True, timeout=60)` inside
`_normalize_audio`, together with whether ffmpeg had already created the
`norm_` output file when the call ended. -/
inductive SubprocResult where
  | timeout (tempCreated : Bool)
  | raised
  | exited (returncode : Int) (tempCreated : Bool)
deriving DecidableEq, Repr

/-- Oracle for one `_normalize_audio` call. -/
structure NormEnv where
  ffmpegAvailable : Bool
  normalizeEnabled : Bool
  subproc : SubprocResult
  unlinkFails : Nat → Bool
  renameFails : Nat → Bool

/-- Filesystem state visible to `_normalize_audio`: whether a file exists at the
original path and whether the `norm_` temp artifact exists. -/
structure NormFS where
  orig : Bool
  temp : Bool
deriving DecidableEq, Repr

/-- The `for attempt in range(3)` delete-then-rename swap of `_normalize_audio`:
`file_path.unlink()` raises when the file is gone or transiently locked;
`temp_path.rename(file_path)` raises when transiently locked; on the last
attempt the handler removes the leftover temp artifact and reports failure.
`fuel` is the number of attempts still allowed after the current one
(initially 2), `i` the current attempt index. -/
def normSwap (env : NormEnv) : Nat → Nat → NormFS → Bool × NormFS
  | i, fuel, fs =>
    let unlinkOk := fs.orig && !(env.unlinkFails i)
    let fs1 := if unlinkOk then { fs with orig := false } else fs
    let renameOk := unlinkOk && !(env.renameFails i)
    if renameOk then (true, { fs1 with orig := true, temp := false })
    else
      match fuel with
      | 0 => (false, { fs1 with temp := false })
      | f + 1 => normSwap env (i + 1) f fs1

/-- `SpotifyDownloader._normalize_audio`: no-op success when ffmpeg is
unavailable or normalization disabled; `False` when the input file is missing;
otherwise run ffmpeg into the sibling `norm_` path and, on exit code 0 with the
output present, perform the swap; a non-zero exit (or missing output) removes
the temp artifact; a timeout or other exception returns `False` with no
cleanup. -/
def normalize_audio (env : NormEnv) (fs : NormFS) : Bool × NormFS :=
  if env.ffmpegAvailable = false then (true, fs)
  else if env.normalizeEnabled = false then (true, fs)
  else if fs.orig = false then (false, fs)
  else
    match env.subproc with
    | SubprocResult.timeout t => (false, { fs with temp := t })
    | SubprocResult.raised => (false, fs)
    | SubprocResult.exited rc t =>
      let fs1 : NormFS := { fs with temp := t }
      if rc = 0 ∧ t = true then normSwap env 0 2 fs1
      else (false, { fs1 with temp := false })

/-- Oracle for `_create_zip`: the zip-writing loop raises, `shutil.rmtree`
raises, or both succeed. -/
inductive ZipOutcome where
  | ok
  | writeError
  | rmtreeError
deriving DecidableEq, Repr

/-- State of the archive file at `zip_path` after `_create_zip` returns:
`zipfile.ZipFile(zip_path, 'w')` creates the file on open, so an error raised
while adding members leaves a partially written archive on disk. -/
inductive ArchiveFile where
  | absent
  | partialFile
  | complete
deriving DecidableEq, Repr

/-- State of the playlist output directory after the run. -/
inductive DirState where
  | notCreated
  | intact
  | partiallyRemoved
  | removed
deriving DecidableEq, Repr

/-- `SpotifyDownloader._create_zip`: writes every `*.mp3` into the archive and
then removes the source tree; the `except Exception` clause only logs, so the
caller never observes the error. -/
def create_zip (z : ZipOutcome) : DirState × ArchiveFile :=
  match z with
  | ZipOutcome.writeError => (DirState.intact, ArchiveFile.partialFile)
  | ZipOutcome.rmtreeError => (DirState.partiallyRemoved, ArchiveFile.complete)
  | ZipOutcome.ok => (DirState.removed, ArchiveFile.complete)

/-- Run-level oracle for `download_playlist`: `sp.playlist` yields the playlist
(name) or raises, `_get_all_tracks` yields the track list or raises, and the
`_create_zip` outcome. -/
structure RunEnv where
  playlistFetch : Except Unit String
  tracksFetch : Except Unit (List Track)
  zipOutcome : ZipOutcome

/-- Observable outcome of one `download_playlist` run. -/
structure RunResult where
  result : Option String
  dirCreated : Bool
  dirState : DirState
  archive : ArchiveFile
  tracksDispatched : Nat
deriving DecidableEq, Repr

/-- `SpotifyDownloader.download_playlist`: any exception up to and including
`_get_all_tracks` is caught and converted to `None`; after the track pool
completes, `_create_zip` runs (swallowing its own errors) and `zip_path` is
returned unconditionally. -/
def download_playlist (env : RunEnv) : RunResult :=
  match env.playlistFetch with
  | Except.error _ =>
    { result := none, dirCreated := false, dirState := DirState.notCreated,
      archive := ArchiveFile.absent, tracksDispatched := 0 }
  | Except.ok rawName =>
    let name := normalize_filename rawName
    match env.tracksFetch with
    | Except.error _ =>
      { result := none, dirCreated := true, dirState := DirState.intact,
        archive := ArchiveFile.absent, tracksDispatched := 0 }
    | Except.ok tracks =>
      let za := create_zip env.zipOutcome
      { result := some (name ++ ".zip"), dirCreated := true, dirState := za.1,
        archive := za.2, tracksDispatched := tracks.length }

/-- Decimal text of a natural number: the base-10 digits (low digit first)
rendered and put in reading order; `0` renders as `"0"`.  This is the text an
f-string interpolates for a non-negative int. -/
def decRepr (n : Nat) : List Char :=
  if n = 0 then ['0'] else ((Nat.digits 10 n).map Nat.digitChar).reverse

/-- `hash(url) % 10000` — Python's `%` with a positive modulus is the
non-negative remainder, which `Int.emod` also yields. -/
def tempStem (h : String → Int) (url : String) : Int := h url % 10000

/-- `_download_track`'s `temp_filename = f"temp_{hash(url) % 10000}"`, for an
arbitrary interpretation `h` of Python's (process-seeded) string hash. -/
def tempFilename (h : String → Int) (url : String) : String :=
  "temp_" ++ String.mk (decRepr (tempStem h url).toNat)

theorem str_ext {s t : String} (h : s.data = t.data) : s = t := by
  cases s; cases t; exact congrArg String.mk h

theorem str_data_append (s t : String) : (s ++ t).data = s.data ++ t.data := by
  cases s; cases t; rfl

theorem pyStrip_subset {c : Char} {l : List Char} (h : c ∈ pyStrip l) : c ∈ l := by
  unfold pyStrip at h
  have hpre := List.rdropWhile_prefix pyIsSpace (List.dropWhile pyIsSpace l)
  have h1 : c ∈ List.dropWhile pyIsSpace l := hpre.sublist.subset h
  have hsuf := List.dropWhile_suffix (l := l) pyIsSpace
  exact hsuf.sublist.subset h1

theorem dropWhile_pyStrip (l : List Char) :
    List.dropWhile pyIsSpace (pyStrip l) = pyStrip l := by
  rw [List.dropWhile_eq_self_iff]
  intro hl
  have hpre := List.rdropWhile_prefix pyIsSpace (List.dropWhile pyIsSpace l)
  obtain ⟨t, ht⟩ := hpre
  have ht' : pyStrip l ++ t = List.dropWhile pyIsSpace l := ht
  have hlen2 : 0 < (List.dropWhile pyIsSpace l).length := by
    rw [← ht']
    simp only [List.length_append]
    omega
  have hnot := List.dropWhile_get_zero_not pyIsSpace l hlen2
  have hg : (List.dropWhile pyIsSpace l).get ⟨0, hlen2⟩ = (pyStrip l).get ⟨0, hl⟩ := by
    have he := List.get_of_eq ht'.symm ⟨0, hlen2⟩
    exact he.trans (List.get_append 0 hl)
  rw [hg] at hnot
  exact hnot

theorem pyStrip_idem (l : List Char) : pyStrip (pyStrip l) = pyStrip l := by
  show List.rdropWhile pyIsSpace (List.dropWhile pyIsSpace (pyStrip l)) = pyStrip l
  rw [dropWhile_pyStrip]
  show List.rdropWhile pyIsSpace (List.rdropWhile pyIsSpace (List.dropWhile pyIsSpace l))
      = List.rdropWhile pyIsSpace (List.dropWhile pyIsSpace l)
  exact List.rdropWhile_idempotent _ _

theorem translateChar_idem (c : Char) :
    translateChar (translateChar c) = translateChar c := by
  unfold translateChar
  by_cases h : forbiddenChars.contains c
  · rw [if_pos h]; rfl
  · rw [if_neg h, if_neg h]

theorem mem_norm_translated {s : String} {c : Char}
    (h : c ∈ (normalize_filename s).data) : ∃ d, translateChar d = c := by
  unfold normalize_filename at h
  have h1 : c ∈ s.data.map translateChar := pyStrip_subset h
  obtain ⟨d, _, hd⟩ := List.mem_map.mp h1
  exact ⟨d, hd⟩

theorem norm_no_forbidden {s : String} {c : Char}
    (h : c ∈ (normalize_filename s).data) : forbiddenChars.contains c = false := by
  obtain ⟨d, hd⟩ := mem_norm_translated h
  subst hd
  unfold translateChar
  by_cases hf : forbiddenChars.contains d
  · rw [if_pos hf]; decide
  · rw [if_neg hf]; exact Bool.eq_false_iff.mpr hf

theorem norm_metachar {s : String} (hbr : '[' ∉ (normalize_filename s).data) :
    metacharFree (normalize_filename s).data := by
  intro c hc
  have hnf := norm_no_forbidden hc
  refine ⟨?_, ?_, ?_⟩
  · intro he; subst he; simp [forbiddenChars] at hnf
  · intro he; subst he; simp [forbiddenChars] at hnf
  · intro he; subst he; exact hbr hc

theorem normalize_filename_idem (s : String) :
    normalize_filename (normalize_filename s) = normalize_filename s := by
  apply str_ext
  show pyStrip ((normalize_filename s).data.map translateChar) = (normalize_filename s).data
  have hmap : (normalize_filename s).data.map translateChar = (normalize_filename s).data := by
    have h1 : (normalize_filename s).data.map translateChar
        = (normalize_filename s).data.map id :=
      List.map_congr_left (fun a ha => by
        obtain ⟨d, hd⟩ := mem_norm_translated ha
        subst hd
        exact translateChar_idem d)
    rw [h1, List.map_id]
  rw [hmap]
  show pyStrip (pyStrip (s.data.map translateChar)) = pyStrip (s.data.map translateChar)
  exact pyStrip_idem _

theorem splitClose_len :
    ∀ (l a b : List Char), splitClose l = some (a, b) → b.length < l.length := by
  intro l
  induction l with
  | nil => intro a b h; simp [splitClose] at h
  | cons c rest ih =>
    intro a b h
    by_cases hc : c = ']'
    · rw [splitClose, if_pos hc] at h
      simp at h
      obtain ⟨ha, hb⟩ := h
      subst hb
      simp
    · rw [splitClose, if_neg hc] at h
      cases hE : splitClose rest with
      | none => rw [hE] at h; simp at h
      | some ab =>
        rw [hE] at h
        simp at h
        obtain ⟨ha, hb⟩ := h
        have := ih ab.1 ab.2 (by rw [hE])
        subst hb
        simpa using Nat.lt_succ_of_lt this

theorem parseClassCore_len :
    ∀ (l a b : List Char), parseClassCore l = some (a, b) → b.length < l.length := by
  intro l a b h
  cases l with
  | nil => simp [parseClassCore] at h
  | cons c r2 =>
    rw [parseClassCore] at h
    by_cases hc : c = ']'
    · rw [if_pos hc] at h
      cases hE : splitClose r2 with
      | none => rw [hE] at h; simp at h
      | some ab =>
        rw [hE] at h
        simp at h
        obtain ⟨ha, hb⟩ := h
        have := splitClose_len r2 ab.1 ab.2 (by rw [hE])
        subst hb
        simpa using Nat.lt_succ_of_lt this
    · rw [if_neg hc] at h
      exact splitClose_len _ a b h

theorem parseClass_len :
    ∀ (l : List Char) (neg : Bool) (content rest : List Char),
      parseClass l = some (neg, content, rest) → rest.length < l.length := by
  intro l neg content rest h
  cases l with
  | nil => simp [parseClass] at h
  | cons c l1 =>
    rw [parseClass] at h
    by_cases hc : c = '!'
    · rw [if_pos hc] at h
      cases hE : parseClassCore l1 with
      | none => rw [hE] at h; simp at h
      | some ab =>
        rw [hE] at h
        simp only [Option.map_some', Option.some.injEq, Prod.mk.injEq] at h
        have hlen := parseClassCore_len l1 ab.1 ab.2 (by rw [hE])
        rw [← h.2.2]
        simpa using Nat.lt_succ_of_lt hlen
    · rw [if_neg hc] at h
      cases hE : parseClassCore (c :: l1) with
      | none => rw [hE] at h; simp at h
      | some ab =>
        rw [hE] at h
        simp only [Option.map_some', Option.some.injEq, Prod.mk.injEq] at h
        have hlen := parseClassCore_len (c :: l1) ab.1 ab.2 (by rw [hE])
        rw [← h.2.2]
        exact hlen

theorem ff_nil (n : Nat) (s : List Char) : fnmatchFuel (n + 1) [] s = s.isEmpty := rfl

theorem ff_star_nil (n : Nat) (ps : List Char) :
    fnmatchFuel (n + 1) ('*' :: ps) [] = fnmatchFuel n ps [] := by
  simp [fnmatchFuel]

theorem ff_star_cons (n : Nat) (ps : List Char) (d : Char) (ss : List Char) :
    fnmatchFuel (n + 1) ('*' :: ps) (d :: ss) =
      (fnmatchFuel n ps (d :: ss) || fnmatchFuel n ('*' :: ps) ss) := by
  simp [fnmatchFuel]

theorem ff_q_nil (n : Nat) (ps : List Char) :
    fnmatchFuel (n + 1) ('?' :: ps) [] = false := by
  simp [fnmatchFuel]

theorem ff_q_cons (n : Nat) (ps : List Char) (d : Char) (ss : List Char) :
    fnmatchFuel (n + 1) ('?' :: ps) (d :: ss) = fnmatchFuel n ps ss := by
  simp [fnmatchFuel]

theorem ff_class_none_nil (n : Nat) (ps : List Char) (h : parseClass ps = none) :
    fnmatchFuel (n + 1) ('[' :: ps) [] = false := by
  simp [fnmatchFuel, h]

theorem ff_class_none_cons (n : Nat) (ps : List Char) (d : Char) (ss : List Char)
    (h : parseClass ps = none) :
    fnmatchFuel (n + 1) ('[' :: ps) (d :: ss) = ((d == '[') && fnmatchFuel n ps ss) := by
  simp [fnmatchFuel, h]

theorem ff_class_some_nil (n : Nat) (ps : List Char) (neg : Bool) (content rest : List Char)
    (h : parseClass ps = some (neg, content, rest)) :
    fnmatchFuel (n + 1) ('[' :: ps) [] = false := by
  simp [fnmatchFuel, h]

theorem ff_class_some_cons (n : Nat) (ps : List Char) (neg : Bool) (content rest : List Char)
    (d : Char) (ss : List Char) (h : parseClass ps = some (neg, content, rest)) :
    fnmatchFuel (n + 1) ('[' :: ps) (d :: ss) =
      ((inClass content d != neg) && fnmatchFuel n rest ss) := by
  simp [fnmatchFuel, h]

theorem ff_lit_nil (n : Nat) (c : Char) (ps : List Char)
    (h1 : c ≠ '*') (h2 : c ≠ '?') (h3 : c ≠ '[') :
    fnmatchFuel (n + 1) (c :: ps) [] = false := by
  simp [fnmatchFuel, h1, h2, h3]

theorem ff_lit_cons (n : Nat) (c : Char) (ps : List Char) (d : Char) (ss : List Char)
    (h1 : c ≠ '*') (h2 : c ≠ '?') (h3 : c ≠ '[') :
    fnmatchFuel (n + 1) (c :: ps) (d :: ss) = ((d == c) && fnmatchFuel n ps ss) := by
  simp [fnmatchFuel, h1, h2, h3]

theorem fnmatchFuel_irrel :
    ∀ (n m : Nat) (p s : List Char),
      p.length + s.length < n → p.length + s.length < m →
      fnmatchFuel n p s = fnmatchFuel m p s := by
  intro n
  induction n with
  | zero => intro m p s hn _; exact absurd hn (Nat.not_lt_zero _)
  | succ n ih =>
    intro m p s hn hm
    cases m with
    | zero => exact absurd hm (Nat.not_lt_zero _)
    | succ m =>
      cases p with
      | nil => rw [ff_nil, ff_nil]
      | cons c ps =>
        have hn' : ps.length + s.length + 1 < n + 1 := by
          simpa [Nat.add_right_comm] using hn
        have hm' : ps.length + s.length + 1 < m + 1 := by
          simpa [Nat.add_right_comm] using hm
        by_cases h1 : c = '*'
        · subst h1
          cases s with
          | nil =>
            rw [ff_star_nil, ff_star_nil]
            exact ih m ps [] (by omega) (by omega)
          | cons d ss =>
            rw [ff_star_cons, ff_star_cons]
            have e1 := ih m ps (d :: ss) (by simp at hn' ⊢; omega) (by simp at hm' ⊢; omega)
            have e2 := ih m ('*' :: ps) ss (by simp at hn' ⊢; omega) (by simp at hm' ⊢; omega)
            rw [e1, e2]
        · by_cases h2 : c = '?'
          · subst h2
            cases s with
            | nil => rw [ff_q_nil, ff_q_nil]
            | cons d ss =>
              rw [ff_q_cons, ff_q_cons]
              exact ih m ps ss (by simp at hn' ⊢; omega) (by simp at hm' ⊢; omega)
          · by_cases h3 : c = '['
            · subst h3
              cases hpc : parseClass ps with
              | none =>
                cases s with
                | nil => rw [ff_class_none_nil _ _ hpc, ff_class_none_nil _ _ hpc]
                | cons d ss =>
                  rw [ff_class_none_cons _ _ _ _ hpc, ff_class_none_cons _ _ _ _ hpc]
                  have := ih m ps ss (by simp at hn' ⊢; omega) (by simp at hm' ⊢; omega)
                  rw [this]
              | some nc =>
                obtain ⟨neg, content, rest⟩ := nc
                have hrest : rest.length < ps.length := parseClass_len ps neg content rest hpc
                cases s with
                | nil =>
                  rw [ff_class_some_nil _ _ _ _ _ hpc, ff_class_some_nil _ _ _ _ _ hpc]
                | cons d ss =>
                  rw [ff_class_some_cons _ _ _ _ _ _ _ hpc, ff_class_some_cons _ _ _ _ _ _ _ hpc]
                  have := ih m rest ss
                    (by simp at hn' ⊢; omega) (by simp at hm' ⊢; omega)
                  rw [this]
            · cases s with
              | nil => rw [ff_lit_nil _ _ _ h1 h2 h3, ff_lit_nil _ _ _ h1 h2 h3]
              | cons d ss =>
                rw [ff_lit_cons _ _ _ _ _ h1 h2 h3, ff_lit_cons _ _ _ _ _ h1 h2 h3]
                have := ih m ps ss (by simp at hn' ⊢; omega) (by simp at hm' ⊢; omega)
                rw [this]

theorem fl_star_nil (ps : List Char) : fnmatchL ('*' :: ps) [] = fnmatchL ps [] := by
  unfold fnmatchL
  rw [ff_star_nil]
  exact fnmatchFuel_irrel _ _ ps [] (by simp) (by simp)

theorem fl_star_cons (ps : List Char) (d : Char) (ss : List Char) :
    fnmatchL ('*' :: ps) (d :: ss) = (fnmatchL ps (d :: ss) || fnmatchL ('*' :: ps) ss) := by
  unfold fnmatchL
  rw [ff_star_cons]
  congr 1
  all_goals exact fnmatchFuel_irrel _ _ _ _ (by simp <;> omega) (by simp <;> omega)

theorem fl_lit_nil (c : Char) (ps : List Char)
    (h1 : c ≠ '*') (h2 : c ≠ '?') (h3 : c ≠ '[') : fnmatchL (c :: ps) [] = false := by
  unfold fnmatchL
  rw [ff_lit_nil _ _ _ h1 h2 h3]

theorem fl_lit_cons (c : Char) (ps : List Char) (d : Char) (ss : List Char)
    (h1 : c ≠ '*') (h2 : c ≠ '?') (h3 : c ≠ '[') :
    fnmatchL (c :: ps) (d :: ss) = ((d == c) && fnmatchL ps ss) := by
  unfold fnmatchL
  rw [ff_lit_cons _ _ _ _ _ h1 h2 h3]
  congr 1
  exact fnmatchFuel_irrel _ _ ps ss (by simp <;> omega) (by simp <;> omega)

theorem fl_strip_lit :
    ∀ (lit : List Char), metacharFree lit →
      ∀ (ps s : List Char), fnmatchL (lit ++ ps) (lit ++ s) = fnmatchL ps s := by
  intro lit
  induction lit with
  | nil => intro _ ps s; simp
  | cons c rest ih =>
    intro hm ps s
    have hc := hm c (by simp)
    rw [List.cons_append, List.cons_append, fl_lit_cons _ _ _ _ hc.1 hc.2.1 hc.2.2]
    have hcc : (c == c) = true := by simp
    rw [hcc, Bool.true_and]
    exact ih (fun x hx => hm x (by simp [hx])) ps s

theorem fl_star_absorb :
    ∀ (a ps s : List Char), fnmatchL ('*' :: ps) s = true →
      fnmatchL ('*' :: ps) (a ++ s) = true := by
  intro a
  induction a with
  | nil => intro ps s h; simpa using h
  | cons c rest ih =>
    intro ps s h
    rw [List.cons_append, fl_star_cons]
    simp [ih ps s h]

theorem fl_star_intro (ps s : List Char) (h : fnmatchL ps s = true) :
    fnmatchL ('*' :: ps) s = true := by
  cases s with
  | nil => rw [fl_star_nil]; exact h
  | cons d ss => rw [fl_star_cons]; simp [h]

theorem fnmatch_decomp (t pre mid : List Char) (hm : metacharFree t) :
    fnmatchL ('*' :: (t ++ '*' :: ['.', 'm', 'p', '3']))
      (pre ++ (t ++ (mid ++ ['.', 'm', 'p', '3']))) = true := by
  apply fl_star_absorb
  apply fl_star_intro
  rw [fl_strip_lit t hm ('*' :: ['.', 'm', 'p', '3']) (mid ++ ['.', 'm', 'p', '3'])]
  apply fl_star_absorb
  apply fl_star_intro
  have hext : metacharFree ['.', 'm', 'p', '3'] := by unfold metacharFree; decide
  have hfin := fl_strip_lit ['.', 'm', 'p', '3'] hext [] []
  simpa using hfin

theorem fnmatchStr_decomp (t pre mid : String) (hm : metacharFree t.data) :
    fnmatchStr ("*" ++ t ++ "*.mp3") (pre ++ t ++ mid ++ ".mp3") = true := by
  unfold fnmatchStr
  have e1 : ("*" ++ t ++ "*.mp3").data = '*' :: (t.data ++ '*' :: ['.', 'm', 'p', '3']) := by
    rw [str_data_append, str_data_append]
    simp
  have e2 : (pre ++ t ++ mid ++ ".mp3").data
      = pre.data ++ (t.data ++ (mid.data ++ ['.', 'm', 'p', '3'])) := by
    rw [str_data_append, str_data_append, str_data_append]
    simp
  rw [e1, e2]
  exact fnmatch_decomp t.data pre.data mid.data hm

theorem processTrack_skip (env : ProcEnv) (dirFiles : List String) (track : Track)
    (f pre mid : String)
    (hm : metacharFree (normalize_filename track.name).data)
    (hf : f ∈ dirFiles)
    (hd : f = pre ++ normalize_filename track.name ++ mid ++ ".mp3") :
    processTrack env dirFiles track = [] := by
  have hmatch : fnmatchStr ("*" ++ normalize_filename track.name ++ "*.mp3") f = true := by
    rw [hd]
    exact fnmatchStr_decomp (normalize_filename track.name) pre mid hm
  have hany : dirFiles.any
      (fun g => fnmatchStr ("*" ++ normalize_filename track.name ++ "*.mp3") g) = true :=
    List.any_eq_true.mpr ⟨f, hf, hmatch⟩
  simp only [processTrack]
  rw [if_pos hany]

/-- C6, counterexample: the claim's forbidden set excludes the period, so
`normalize_filename "a.b"` should leave `'.'` unchanged — but the code's
translation table also contains `'.'` and yields `"a_b"`. -/
theorem c6_counterexample :
    normalize_filename "a.b" = "a_b" ∧ specForbiddenChars.contains '.' = false := by
  constructor
  · rfl
  · rfl

/-- C6 (amended): `normalize_filename` replaces exactly the ten-character set
`'\\/.:*?"<>|'` (the spec's nine plus the period) with underscores and trims
surrounding whitespace; its result never contains a character of that set, and
it is deterministic and idempotent. -/
theorem c6_amended :
    (∀ s : String,
        (normalize_filename s).data.all (fun c => !(forbiddenChars.contains c)) = true)
    ∧ ∀ s : String, normalize_filename (normalize_filename s) = normalize_filename s := by
  constructor
  · intro s
    rw [List.all_eq_true]
    intro c hc
    rw [norm_no_forbidden hc]
    rfl
  · exact normalize_filename_idem

/-- C7, counterexample: the output directory contains exactly the file
`"{artist} - {track}.mp3"` built from the track's normalized names, yet for the
track "Song [Live]" the glob pattern `*Song [Live]*.mp3` treats `[Live]` as a
character class, the existing file does not match, and the unit is dispatched
(candidate resolution runs) instead of being skipped. -/
theorem c7_counterexample :
    normalize_filename (String.intercalate ", " ["A"]) ++ " - " ++
        normalize_filename "Song [Live]" ++ ".mp3" = "A - Song [Live].mp3"
    ∧ processTrack ⟨none, false⟩ ["A - Song [Live].mp3"]
        ⟨"Song [Live]", ["A"], 200000⟩ = [ProcAction.resolve] := by
  constructor
  · rfl
  · rfl

/-- C7 (amended): for every track whose normalized title contains no `'['`
(the one glob metacharacter `normalize_filename` does not replace), if the
output directory already contains `"{artist} - {track}.mp3"` built from the
track's normalized names, `_process_track` skips the unit entirely: no
candidate resolution and no fetch are performed. -/
theorem c7_amended (env : ProcEnv) (dirFiles : List String) (track : Track)
    (hbr : '[' ∉ (normalize_filename track.name).data)
    (hmem : (normalize_filename (String.intercalate ", " track.artists) ++ " - " ++
        normalize_filename track.name ++ ".mp3") ∈ dirFiles) :
    processTrack env dirFiles track = [] := by
  apply processTrack_skip env dirFiles track _
    (normalize_filename (String.intercalate ", " track.artists) ++ " - ") ""
    (norm_metachar hbr) hmem
  apply str_ext
  simp [str_data_append]

/-- C7 witness: a concrete bracket-free track, already present, is skipped. -/
theorem c7_witness :
    processTrack ⟨some "u", true⟩ ["A - Song Live.mp3"] ⟨"Song Live", ["A"], 180000⟩ = [] :=
  c7_amended ⟨some "u", true⟩ ["A - Song Live.mp3"] ⟨"Song Live", ["A"], 180000⟩
    (by decide) (by decide)

/-- C10, counterexample: the existing file `"x.mp3"` contains the normalized
title `"3"` as a substring (`"x.mp3" = "x.mp" ++ "3" ++ ""`), yet the glob
`*3*.mp3` requires the title to occur before the `.mp3` extension, so the unit
is not skipped: resolution runs. -/
theorem c10_counterexample :
    "x.mp3" = "x.mp" ++ "3" ++ "" ∧ normalize_filename "3" = "3"
    ∧ processTrack ⟨none, false⟩ ["x.mp3"] ⟨"3", ["B"], 100000⟩ = [ProcAction.resolve] := by
  refine ⟨rfl, rfl, rfl⟩

/-- C10 (amended): the pre-check matches the glob `*{track}*.mp3` built from the
normalized title alone, ignoring the artist: for every track whose normalized
title contains no `'['`, any existing filename of the form
`pre ++ title ++ mid ++ ".mp3"` — the title occurring anywhere before the
`.mp3` extension, with arbitrary surrounding text, in particular a different
artist's file — causes the unit to be skipped without resolving or fetching. -/
theorem c10_amended (env : ProcEnv) (dirFiles : List String) (track : Track)
    (pre mid : String)
    (hbr : '[' ∉ (normalize_filename track.name).data)
    (hmem : (pre ++ normalize_filename track.name ++ mid ++ ".mp3") ∈ dirFiles) :
    processTrack env dirFiles track = [] :=
  processTrack_skip env dirFiles track _ pre mid (norm_metachar hbr) hmem rfl

/-- C10 witness: a same-named track by a different artist, with extra text
around the title, still causes the skip. -/
theorem c10_witness :
    processTrack ⟨some "u", false⟩ ["Other Artist - Tune (remix).mp3"]
      ⟨"Tune", ["X"], 90000⟩ = [] :=
  c10_amended ⟨some "u", false⟩ ["Other Artist - Tune (remix).mp3"]
    ⟨"Tune", ["X"], 90000⟩ "Other Artist - " " (remix)" (by decide) (by decide)

theorem pyMin_nil (f : SearchEntry → Int) (a : SearchEntry) : pyMin f a [] = a := rfl

theorem pyMin_cons (f : SearchEntry → Int) (a x : SearchEntry) (xs : List SearchEntry) :
    pyMin f a (x :: xs) = pyMin f (if f x < f a then x else a) xs := rfl

theorem pyMin_firstMin :
    ∀ (l : List SearchEntry) (f : SearchEntry → Int) (a : SearchEntry),
      isFirstMin f (a :: l) (pyMin f a l) := by
  intro l
  induction l with
  | nil =>
    intro f a
    unfold isFirstMin
    refine ⟨0, by simp, rfl, ?_, ?_⟩
    · intro y hy
      simp at hy
      subst hy
      rw [pyMin_nil]
    · intro y hy
      simp at hy
  | cons x xs ih =>
    intro f a
    unfold isFirstMin
    rw [pyMin_cons]
    by_cases hlt : f x < f a
    · rw [if_pos hlt]
      obtain ⟨i, hi, hget, hmin, htake⟩ := ih f x
      refine ⟨i + 1, by simpa using Nat.succ_lt_succ hi, ?_, ?_, ?_⟩
      · exact hget
      · intro y hy
        rcases List.mem_cons.mp hy with h | h
        · subst h
          have hx0 : f (pyMin f x xs) ≤ f x := hmin x (by simp)
          exact le_of_lt (lt_of_le_of_lt hx0 hlt)
        · exact hmin y h
      · intro y hy
        rw [List.take_succ_cons] at hy
        rcases List.mem_cons.mp hy with h | h
        · subst h
          have hx0 : f (pyMin f x xs) ≤ f x := hmin x (by simp)
          exact lt_of_le_of_lt hx0 hlt
        · exact htake y h
    · rw [if_neg hlt]
      have hax : f a ≤ f x := not_lt.mp hlt
      obtain ⟨i, hi, hget, hmin, htake⟩ := ih f a
      cases i with
      | zero =>
        refine ⟨0, by simp, ?_, ?_, ?_⟩
        · exact hget
        · intro y hy
          rcases List.mem_cons.mp hy with h | h
          · subst h
            exact hmin _ (by simp)
          · rcases List.mem_cons.mp h with h2 | h2
            · subst h2
              have h0 : f (pyMin f a xs) ≤ f a := hmin a (by simp)
              exact le_trans h0 hax
            · exact hmin y (by simp [h2])
        · intro y hy
          simp at hy
      | succ k =>
        refine ⟨k + 2, by simp at hi ⊢; omega, ?_, ?_, ?_⟩
        · exact hget
        · intro y hy
          rcases List.mem_cons.mp hy with h | h
          · subst h
            exact hmin _ (by simp)
          · rcases List.mem_cons.mp h with h2 | h2
            · subst h2
              have ha2 : f (pyMin f a xs) < f a := by
                apply htake
                rw [List.take_succ_cons]
                simp
              exact le_of_lt (lt_of_lt_of_le ha2 hax)
            · exact hmin y (by simp [h2])
        · intro y hy
          rw [List.take_succ_cons, List.take_succ_cons] at hy
          rcases List.mem_cons.mp hy with h | h
          · subst h
            apply htake
            rw [List.take_succ_cons]
            simp
          · rcases List.mem_cons.mp h with h2 | h2
            · subst h2
              have ha2 : f (pyMin f a xs) < f a := by
                apply htake
                rw [List.take_succ_cons]
                simp
              exact lt_of_lt_of_le ha2 hax
            · apply htake
              rw [List.take_succ_cons]
              exact List.mem_cons_of_mem _ h2

/-- C5: for a positive target duration and a non-empty candidate list, the
resolver returns the locator of the candidate minimizing
`abs(duration - target)` (missing durations read as `0`), and among ties the
first minimal entry in provider order is chosen. -/
theorem c5_resolver_best_match (d : Int) (hd : 0 < d) (e : SearchEntry)
    (rest : List SearchEntry) :
    get_youtube_url (Except.ok (e :: rest)) d = (pyMin (entryKey d) e rest).url
    ∧ isFirstMin (entryKey d) (e :: rest) (pyMin (entryKey d) e rest) := by
  constructor
  · have hne : ¬ d = 0 := by omega
    simp [get_youtube_url, hne]
  · exact pyMin_firstMin rest (entryKey d) e

/-- C5 witness: target 100s; candidates with durations 90s and 98s; the second
(closer) candidate's locator is returned and is the first minimum. -/
theorem c5_witness :
    (0 : Int) < 100
    ∧ (get_youtube_url
          (Except.ok [⟨some "u1", some 90⟩, ⟨some "u2", some 98⟩]) 100
        = (pyMin (entryKey 100) ⟨some "u1", some 90⟩ [⟨some "u2", some 98⟩]).url
      ∧ isFirstMin (entryKey 100) [⟨some "u1", some 90⟩, ⟨some "u2", some 98⟩]
          (pyMin (entryKey 100) ⟨some "u1", some 90⟩ [⟨some "u2", some 98⟩])) :=
  ⟨by decide, c5_resolver_best_match 100 (by decide) ⟨some "u1", some 90⟩
    [⟨some "u2", some 98⟩]⟩

/-- C8: for a non-empty candidate list and target duration 0 (Python's
`not duration` is exactly `duration == 0` for an int), the resolver returns the
first candidate's locator regardless of any candidate's duration. -/
theorem c8_resolver_zero_duration (e : SearchEntry) (rest : List SearchEntry) :
    get_youtube_url (Except.ok (e :: rest)) 0 = e.url := by
  simp [get_youtube_url]

/-- C4: `_download_track` performs at most 2 rename attempts, returns either an
absent result or the final file path `outputPath / (finalFilename + ".mp3")`,
and converts any exception raised by its body into an absent result rather than
propagating it. -/
theorem c4_download_track (env : FetchEnv) (outputPath finalFilename : String) :
    (download_track env outputPath finalFilename).2 ≤ 2
    ∧ ((download_track env outputPath finalFilename).1 = none
       ∨ (download_track env outputPath finalFilename).1
          = some (outputPath ++ "/" ++ finalFilename ++ ".mp3"))
    ∧ (∀ err : Unit, download_track_body env outputPath finalFilename = Except.error err →
        download_track env outputPath finalFilename = (none, 0)) := by
  unfold download_track download_track_body
  by_cases h1 : env.downloadRaises
  · simp [h1]
  · by_cases h2 : env.tempFound = false
    · simp [h1, h2]
    · by_cases h3 : env.renameFails 0 = false
      · simp [h1, h2, h3]
      · by_cases h4 : env.renameFails 1 = false
        · simp [h1, h2, h3, h4]
        · simp [h1, h2, h3, h4]

/-- C4 witness: when the download raises, the body is an error and the caller
sees `(none, 0)`. -/
theorem c4_witness :
    download_track ⟨true, true, fun _ => false⟩ "out" "f" = (none, 0) :=
  (c4_download_track ⟨true, true, fun _ => false⟩ "out" "f").2.2 () rfl

theorem normSwap_clean (env : NormEnv) :
    ∀ (fuel i : Nat) (fs : NormFS),
      (normSwap env i fuel fs).2.temp = false
      ∧ ((normSwap env i fuel fs).1 = true → (normSwap env i fuel fs).2.orig = true) := by
  intro fuel
  induction fuel with
  | zero =>
    intro i fs
    simp only [normSwap]
    split
    · exact ⟨rfl, fun _ => rfl⟩
    · exact ⟨rfl, fun hcon => by simp at hcon⟩
  | succ f ih =>
    intro i fs
    simp only [normSwap]
    split
    · exact ⟨rfl, fun _ => rfl⟩
    · exact ih (i + 1) _

/-- C1, counterexample: ffmpeg available and normalization enabled, the
subprocess call times out after ffmpeg has created the `norm_` output; the
`except subprocess.TimeoutExpired` handler returns `False` without cleanup, so
both the original file and the temp artifact remain — two copies on disk. -/
theorem c1_counterexample :
    normalize_audio
        ⟨true, true, SubprocResult.timeout true, fun _ => false, fun _ => false⟩
        ⟨true, false⟩
      = (false, ⟨true, true⟩) := rfl

/-- C1 (amended): starting from exactly the original file on disk, after
`_normalize_audio` returns: on a `True` return exactly one file exists at the
original path and no temp artifact remains; whenever the subprocess ran to
completion (any exit code), no temp artifact remains — though on swap-retry
exhaustion after a successful delete the original may be gone too; but on a
subprocess timeout the original is untouched and the temp artifact survives
exactly when ffmpeg had created it. -/
theorem c1_amended (env : NormEnv) (fs : NormFS)
    (h1 : fs.orig = true) (h2 : fs.temp = false) :
    ((normalize_audio env fs).1 = true →
      (normalize_audio env fs).2.orig = true ∧ (normalize_audio env fs).2.temp = false)
    ∧ (∀ rc : Int, ∀ t : Bool, env.subproc = SubprocResult.exited rc t →
        (normalize_audio env fs).2.temp = false)
    ∧ (env.ffmpegAvailable = true → env.normalizeEnabled = true →
        ∀ t : Bool, env.subproc = SubprocResult.timeout t →
          (normalize_audio env fs).2.orig = true ∧ (normalize_audio env fs).2.temp = t) := by
  unfold normalize_audio
  by_cases ha : env.ffmpegAvailable = false
  · simp [ha, h1, h2]
  · by_cases hb : env.normalizeEnabled = false
    · simp [ha, hb, h1, h2]
    · rw [if_neg ha, if_neg hb, if_neg (by simp [h1])]
      cases hs : env.subproc with
      | timeout t => simp [hs, h1]
      | raised => simp [hs, h1, h2]
      | exited rc t =>
        dsimp only
        by_cases hrc : rc = 0 ∧ t = true
        · rw [if_pos hrc]
          have hclean := normSwap_clean env 2 0 { fs with temp := t }
          refine ⟨fun hsucc => ⟨hclean.2 hsucc, hclean.1⟩, ?_, ?_⟩
          · intro rc2 t2 _
            exact hclean.1
          · intro _ _ t2 hts
            simp at hts
        · rw [if_neg hrc]
          refine ⟨fun hcon => by simp at hcon, ?_, ?_⟩
          · intro rc2 t2 _
            rfl
          · intro _ _ t2 hts
            simp at hts

/-- C1 witness: applying the amended theorem at a concrete timeout run shows
the original file still present and the temp artifact left behind. -/
theorem c1_witness :
    (normalize_audio
        ⟨true, true, SubprocResult.timeout true, fun _ => true, fun _ => true⟩
        ⟨true, false⟩).2.orig = true
    ∧ (normalize_audio
        ⟨true, true, SubprocResult.timeout true, fun _ => true, fun _ => true⟩
        ⟨true, false⟩).2.temp = true :=
  (c1_amended ⟨true, true, SubprocResult.timeout true, fun _ => true, fun _ => true⟩
    ⟨true, false⟩ rfl rfl).2.2 rfl rfl true rfl

/-- C2, counterexample: the zip-writing loop raises; `_create_zip` swallows the
error, a partially written archive exists at the zip path, and
`download_playlist` still returns the archive path — the caller does not
observe an absent result. -/
theorem c2_counterexample :
    download_playlist ⟨Except.ok "p", Except.ok [], ZipOutcome.writeError⟩
      = { result := some "p.zip", dirCreated := true, dirState := DirState.intact,
          archive := ArchiveFile.partialFile, tracksDispatched := 0 } := rfl

/-- C2 (amended): when an error is raised while adding files in `_create_zip`,
the source directory is left intact, but a partially written archive file
exists at the archive path and the error is swallowed: `download_playlist`
still returns the archive path, so the caller receives a path, not an absent
result. -/
theorem c2_amended (env : RunEnv) (name : String) (tracks : List Track)
    (h1 : env.playlistFetch = Except.ok name)
    (h2 : env.tracksFetch = Except.ok tracks)
    (h3 : env.zipOutcome = ZipOutcome.writeError) :
    (download_playlist env).dirState = DirState.intact
    ∧ (download_playlist env).archive = ArchiveFile.partialFile
    ∧ (download_playlist env).result = some (normalize_filename name ++ ".zip") := by
  simp [download_playlist, h1, h2, h3, create_zip]

/-- C2 witness. -/
theorem c2_witness :
    (download_playlist ⟨Except.ok "My List", Except.ok [⟨"t", ["a"], 1000⟩],
        ZipOutcome.writeError⟩).result = some (normalize_filename "My List" ++ ".zip") :=
  (c2_amended ⟨Except.ok "My List", Except.ok [⟨"t", ["a"], 1000⟩], ZipOutcome.writeError⟩
    "My List" [⟨"t", ["a"], 1000⟩] rfl rfl rfl).2.2

/-- C9: when the catalog provider raises on `sp.playlist` (nonexistent
playlist), `download_playlist` returns an absent result, no output directory is
created for the run, and no per-track work is dispatched. -/
theorem c9_setup_failure (env : RunEnv) (h : env.playlistFetch = Except.error ()) :
    (download_playlist env).result = none
    ∧ (download_playlist env).dirCreated = false
    ∧ (download_playlist env).dirState = DirState.notCreated
    ∧ (download_playlist env).tracksDispatched = 0 := by
  simp [download_playlist, h]

/-- C9 witness. -/
theorem c9_witness :
    (download_playlist ⟨Except.error (), Except.ok [], ZipOutcome.ok⟩).result = none :=
  (c9_setup_failure ⟨Except.error (), Except.ok [], ZipOutcome.ok⟩ rfl).1

/-- C3, counterexample: the temp stem `hash(url) % 10000` takes at most 10000
values, so whatever function Python's seeded string hash realizes, some two
distinct locators share a temp filename (pigeonhole over 10001 distinct
locators). -/
theorem c3_counterexample :
    ¬ ∃ h : String → Int, ∀ u1 u2 : String, u1 ≠ u2 →
        tempFilename h u1 ≠ tempFilename h u2 := by
  rintro ⟨h, hinj⟩
  have hmaps : ∀ i ∈ Finset.range 10001,
      (tempStem h (String.mk (List.replicate i 'a'))).toNat ∈ Finset.range 10000 := by
    intro i _
    rw [Finset.mem_range]
    have hnn : 0 ≤ tempStem h (String.mk (List.replicate i 'a')) := by
      unfold tempStem
      exact Int.emod_nonneg _ (by norm_num)
    have hlt : tempStem h (String.mk (List.replicate i 'a')) < 10000 := by
      unfold tempStem
      exact Int.emod_lt_of_pos _ (by norm_num)
    omega
  have hcard : (Finset.range 10000).card < (Finset.range 10001).card := by simp
  obtain ⟨i, hi, j, hj, hij, heq⟩ :=
    Finset.exists_ne_map_eq_of_card_lt_of_maps_to hcard hmaps
  apply hinj (String.mk (List.replicate i 'a')) (String.mk (List.replicate j 'a'))
  · intro hu
    apply hij
    have hdata : List.replicate i 'a' = List.replicate j 'a' := congrArg String.data hu
    simpa using congrArg List.length hdata
  · unfold tempFilename
    rw [heq]

theorem digitChar_inj10 :
    ∀ a b : Fin 10, Nat.digitChar a.val = Nat.digitChar b.val → a = b := by decide

theorem map_digitChar_inj :
    ∀ (l1 l2 : List Nat), (∀ d ∈ l1, d < 10) → (∀ d ∈ l2, d < 10) →
      l1.map Nat.digitChar = l2.map Nat.digitChar → l1 = l2 := by
  intro l1
  induction l1 with
  | nil =>
    intro l2 _ _ h
    cases l2 with
    | nil => rfl
    | cons b bs => simp at h
  | cons a as ih =>
    intro l2 h1 h2 h
    cases l2 with
    | nil => simp at h
    | cons b bs =>
      simp only [List.map_cons, List.cons.injEq] at h
      have ha : a < 10 := h1 a (by simp)
      have hb : b < 10 := h2 b (by simp)
      have hfin : (⟨a, ha⟩ : Fin 10) = ⟨b, hb⟩ := digitChar_inj10 _ _ h.1
      have hab : a = b := congrArg Fin.val hfin
      rw [hab, ih bs (fun d hd => h1 d (by simp [hd])) (fun d hd => h2 d (by simp [hd])) h.2]

theorem decRepr_ne_zero_str (n : Nat) (hn : n ≠ 0)
    (h : ((Nat.digits 10 n).map Nat.digitChar).reverse = ['0']) : False := by
  have h2 : (Nat.digits 10 n).map Nat.digitChar = ['0'] := by
    have hrev := congrArg List.reverse h
    simpa using hrev
  cases hd : Nat.digits 10 n with
  | nil => rw [hd] at h2; simp at h2
  | cons d ds =>
    rw [hd] at h2
    simp only [List.map_cons, List.cons.injEq] at h2
    have hds : ds = [] := by
      cases ds with
      | nil => rfl
      | cons e es => simp at h2
    have hdlt : d < 10 := Nat.digits_lt_base (by norm_num) (by rw [hd]; simp)
    have hd0 : d = 0 := by
      have hfin : (⟨d, hdlt⟩ : Fin 10) = ⟨0, by norm_num⟩ :=
        digitChar_inj10 _ _ (by simpa using h2.1)
      exact congrArg Fin.val hfin
    have hn0 : n = Nat.ofDigits 10 (Nat.digits 10 n) := (Nat.ofDigits_digits 10 n).symm
    rw [hd, hds, hd0] at hn0
    simp [Nat.ofDigits] at hn0
    exact hn hn0

theorem decRepr_inj : ∀ (a b : Nat), decRepr a = decRepr b → a = b := by
  intro a b hab
  by_cases ha : a = 0
  · by_cases hb : b = 0
    · rw [ha, hb]
    · subst ha
      unfold decRepr at hab
      rw [if_pos rfl, if_neg hb] at hab
      exact absurd hab.symm (fun hh => decRepr_ne_zero_str b hb hh)
  · by_cases hb : b = 0
    · subst hb
      unfold decRepr at hab
      rw [if_neg ha, if_pos rfl] at hab
      exact absurd hab (fun hh => decRepr_ne_zero_str a ha hh)
    · unfold decRepr at hab
      rw [if_neg ha, if_neg hb] at hab
      have h2 : (Nat.digits 10 a).map Nat.digitChar = (Nat.digits 10 b).map Nat.digitChar := by
        have hrev := congrArg List.reverse hab
        simpa using hrev
      have h3 : Nat.digits 10 a = Nat.digits 10 b :=
        map_digitChar_inj _ _ (fun d hd => Nat.digits_lt_base (by norm_num) hd)
          (fun d hd => Nat.digits_lt_base (by norm_num) hd) h2
      have h4 := congrArg (Nat.ofDigits 10) h3
      rwa [Nat.ofDigits_digits, Nat.ofDigits_digits] at h4

/-- C3 (amended): two locators receive distinct temp filenames exactly when
their hashes differ modulo 10000; in particular concurrent workers are
collision-free only for locator pairs whose hash residues differ, not for all
distinct pairs. -/
theorem c3_amended (h : String → Int) (u1 u2 : String)
    (hne : tempStem h u1 ≠ tempStem h u2) :
    tempFilename h u1 ≠ tempFilename h u2 := by
  intro heq
  apply hne
  unfold tempFilename at heq
  have hdata := congrArg String.data heq
  rw [str_data_append, str_data_append] at hdata
  have hmk : decRepr (tempStem h u1).toNat = decRepr (tempStem h u2).toNat :=
    List.append_cancel_left hdata
  have hnat := decRepr_inj _ _ hmk
  have h1n : 0 ≤ tempStem h u1 := by
    unfold tempStem
    exact Int.emod_nonneg _ (by norm_num)
  have h2n : 0 ≤ tempStem h u2 := by
    unfold tempStem
    exact Int.emod_nonneg _ (by norm_num)
  omega

/-- C3 witness: for the hash interpretation `length`, locators `"a"` and
`"ab"` have distinct stems, so their temp filenames differ. -/
theorem c3_witness :
    tempStem (fun s => (s.length : Int)) "a" ≠ tempStem (fun s => (s.length : Int)) "ab"
    ∧ tempFilename (fun s => (s.length : Int)) "a"
        ≠ tempFilename (fun s => (s.length : Int)) "ab" :=
  ⟨by decide, c3_amended (fun s => (s.length : Int)) "a" "ab" (by decide)⟩
